import Mathlib

/-!
# Shallow embedding: Dependency-Track Terraform provider, permission reconciliation

This file embeds the permission-set reconciliation logic of the
`terraform-provider-dependencytrack` repository:

* `internal/provider/team_permissions_resource.go`
  (`TeamPermissionsResource.Create/Read/Update/Delete/ImportState`),
* `internal/provider/managed_user_permissions_resource.go`
  (`ManagedUserPermissionsResource.Create/Read/Update/Delete` and
  `getUserPermissions`),
* `internal/provider/helpers.go` (`parseCompositeID`).

Modelling conventions:

* Remote HTTP/REST calls are modelled by an *API oracle* record: for each
  permission name the oracle answers whether the grant / revoke call fails
  (`Option String` is the Go `error`: `none` = nil error, `some e` = error
  with text `e`), and the fetch endpoint answers with `Except`.
* Every operation returns the *trace* of remote calls it issued, in order,
  together with its outcome.  A diagnostic-and-return in Go (the
  `resp.Diagnostics.AddError(...); return` pattern, which leaves persisted
  state untouched) is the `.error` outcome; a successful run ends in `.ok`
  carrying exactly the values the Go code writes into persisted state.
* `uuid.Parse` (from the external google/uuid library) is abstracted as a
  parameter `parse : String → Option String` returning the canonical string
  of the UUID on success; the provider only ever uses the parsed value via
  `.String()`.
* Go strings in `parseCompositeID` are modelled as `List Char`, and
  `strings.Split(id, "/")` as `splitOnSlash`.
-/

namespace DTProvider

/-- A remote API call issued by one of the permissions resources.
`grant p` is `Permission.AddPermissionToTeam` / `addPermissionToUser` for
permission `p`; `revoke p` is `Permission.RemovePermissionFromTeam` /
`removePermissionFromUser`; `fetch` is the read-back (`Team.Get` /
`GET /api/v1/user/managed`); `deleteHolder` models the client's
holder-deletion endpoints (e.g. `Team.Delete`), which exist in the API
client but are never invoked by the permissions resources. -/
inductive Call where
  | grant (perm : String)
  | revoke (perm : String)
  | fetch
  | deleteHolder
deriving DecidableEq

/-- `dtrack.Permission`: only the `Name` field is ever used. -/
structure Permission where
  name : String
deriving DecidableEq

/-- The part of `dtrack.Team` used by the resource: `UUID` (as its string
form) and `Permissions`. -/
structure Team where
  uuid : String
  permissions : List Permission
deriving DecidableEq

/-- `uuid.Nil` rendered by `.String()`. -/
def uuidNil : String := "00000000-0000-0000-0000-000000000000"

/-- Oracle for the remote calls made by `TeamPermissionsResource`:
per-permission grant/revoke errors and the `Team.Get` response. -/
structure TeamAPI where
  addErr : String → Option String
  removeErr : String → Option String
  getTeam : Except String Team

/-- `ManagedUserWithPermissions` from the managed-user list response:
only `Username` and `Permissions` are consumed. -/
structure ManagedUserWithPermissions where
  username : String
  permissions : List Permission
deriving DecidableEq

/-- Oracle for the remote calls made by `ManagedUserPermissionsResource`:
per-permission grant/revoke errors and the `GET /api/v1/user/managed`
response (error = request/status/unmarshal failure). -/
structure UserAPI where
  addErr : String → Option String
  removeErr : String → Option String
  managedUsers : Except String (List ManagedUserWithPermissions)

/-- The common shape of all four grant/revoke loops
(`for _, permName := range xs { if !skip[permName] { call; if err != nil
{ AddError(msg(permName, err)); return } } }`).  Returns the calls issued
(in order) and `some errText` if the loop aborted with a diagnostic.
The `Create`/`Delete` loops are the instance with `skip = fun _ => false`
(they have no membership guard). -/
def permCallLoop (callErr : String → Option String) (mk : String → Call)
    (skip : String → Bool) (msg : String → String → String) :
    List String → List Call × Option String
  | [] => ([], none)
  | permName :: rest =>
    if skip permName then
      permCallLoop callErr mk skip msg rest
    else
      match callErr permName with
      | some e => ([mk permName], some (msg permName e))
      | none =>
        let r := permCallLoop callErr mk skip msg rest
        (mk permName :: r.1, r.2)

/-- Diagnostic text of `team_permissions_resource.go` for a failed grant
(`"Unable to add permission %s to team, got error: %s"`). -/
def teamAddMsg (p e : String) : String :=
  "Unable to add permission " ++ p ++ " to team, got error: " ++ e

/-- Diagnostic text for a failed team revoke. -/
def teamRemoveMsg (p e : String) : String :=
  "Unable to remove permission " ++ p ++ " from team, got error: " ++ e

/-- Diagnostic text of `managed_user_permissions_resource.go` for a failed
grant. -/
def userAddMsg (p e : String) : String :=
  "Unable to add permission " ++ p ++ " to user, got error: " ++ e

/-- Diagnostic text for a failed user revoke. -/
def userRemoveMsg (p e : String) : String :=
  "Unable to remove permission " ++ p ++ " from user, got error: " ++ e

/-- Outcome of a `Read`: a diagnostic, removal from state
(`resp.State.RemoveResource`), or new state `(id, permissions)`. -/
inductive ReadOutcome where
  | err (msg : String)
  | removed
  | ok (id : String) (permissions : List String)
deriving DecidableEq

/-- Every grant call of a trace is issued at an earlier position than
every revoke call of the trace. -/
def grantsBeforeRevokes (t : List Call) : Prop :=
  ∀ i j, ∀ hi : i < t.length, ∀ hj : j < t.length,
    (∃ p, t.get ⟨i, hi⟩ = Call.grant p) →
    (∃ q, t.get ⟨j, hj⟩ = Call.revoke q) → i < j

/-- The call trace `t` realises exactly the set difference between
`current` and `desired`: one grant per permission of
`desired − current`, one revoke per permission of `current − desired`,
no grant or revoke for a permission in both, and every grant before every
revoke. -/
def exactDiffCalls (current desired : List String) (t : List Call) : Prop :=
  (∀ p, p ∈ desired → p ∉ current → t.count (Call.grant p) = 1) ∧
  (∀ p, p ∈ current → p ∉ desired → t.count (Call.revoke p) = 1) ∧
  (∀ p, p ∈ current → p ∈ desired →
    t.count (Call.grant p) = 0 ∧ t.count (Call.revoke p) = 0) ∧
  grantsBeforeRevokes t

/-! ### Concrete oracles used to exercise the theorems on closed inputs -/

/-- A parse function that accepts every identifier unchanged. -/
def parseAccept : String → Option String := fun s => some s

/-- A parse function that rejects every identifier. -/
def parseReject : String → Option String := fun _ => none

/-- Team oracle: every call succeeds; the team reports permissions B, C. -/
def teamApiBC : TeamAPI :=
  { addErr := fun _ => none
    removeErr := fun _ => none
    getTeam := Except.ok { uuid := "t", permissions := [⟨"B"⟩, ⟨"C"⟩] } }

/-- Team oracle: every call succeeds; the post-reconcile fetch reports only
permission B (the server silently dropped everything else). -/
def teamApiOnlyB : TeamAPI :=
  { addErr := fun _ => none
    removeErr := fun _ => none
    getTeam := Except.ok { uuid := "t", permissions := [⟨"B"⟩] } }

/-- Team oracle: granting permission B fails with error text `boom`;
everything else succeeds and the team reports no permissions. -/
def teamApiFailB : TeamAPI :=
  { addErr := fun p => if p == "B" then some "boom" else none
    removeErr := fun _ => none
    getTeam := Except.ok { uuid := "t", permissions := [] } }

/-- Team oracle: the fetch answers with the nil-UUID team (holder gone). -/
def teamApiNil : TeamAPI :=
  { addErr := fun _ => none
    removeErr := fun _ => none
    getTeam := Except.ok { uuid := uuidNil, permissions := [] } }

/-- Team oracle: every call succeeds; the team reports permission A. -/
def teamApiA : TeamAPI :=
  { addErr := fun _ => none
    removeErr := fun _ => none
    getTeam := Except.ok { uuid := "t", permissions := [⟨"A"⟩] } }

/-- User oracle: every call succeeds; the managed-user list contains only
`alice`, who holds permission A. -/
def userApiAliceA : UserAPI :=
  { addErr := fun _ => none
    removeErr := fun _ => none
    managedUsers := Except.ok [{ username := "alice", permissions := [⟨"A"⟩] }] }

/-- User oracle: every call succeeds; the managed-user list contains only
`alice`, who holds permissions B and C. -/
def userApiAliceBC : UserAPI :=
  { addErr := fun _ => none
    removeErr := fun _ => none
    managedUsers := Except.ok [{ username := "alice", permissions := [⟨"B"⟩, ⟨"C"⟩] }] }

/-- User oracle: every call succeeds; the managed-user list contains only
`alice`, who holds no permissions at all. -/
def userApiAliceEmpty : UserAPI :=
  { addErr := fun _ => none
    removeErr := fun _ => none
    managedUsers := Except.ok [{ username := "alice", permissions := [] }] }

namespace TeamPermissionsResource

/-- `TeamPermissionsResource.Create` (team_permissions_resource.go:91-149):
parse the team UUID, grant every desired permission (aborting on the first
error), then read the team back; on success persisted state is
`(teamUUID.String(), the permission names the server reported)`. -/
def Create (parse : String → Option String) (api : TeamAPI)
    (planTeam : String) (desiredPermissions : List String) :
    List Call × Except String (String × List String) :=
  match parse planTeam with
  | none => ([], Except.error "Invalid Team UUID")
  | some teamUUID =>
    let addRes := permCallLoop api.addErr Call.grant (fun _ => false)
      teamAddMsg desiredPermissions
    match addRes.2 with
    | some e => (addRes.1, Except.error e)
    | none =>
      match api.getTeam with
      | Except.error e =>
        (addRes.1 ++ [Call.fetch],
          Except.error ("Unable to read team after create, got error: " ++ e))
      | Except.ok team =>
        (addRes.1 ++ [Call.fetch],
          Except.ok (teamUUID, team.permissions.map Permission.name))

/-- `TeamPermissionsResource.Read` (team_permissions_resource.go:151-195):
parse the team UUID, fetch the team; a nil team UUID removes the resource
from state, otherwise state becomes the fetched permission names. -/
def Read (parse : String → Option String) (api : TeamAPI)
    (stateTeam : String) : List Call × ReadOutcome :=
  match parse stateTeam with
  | none => ([], ReadOutcome.err "Invalid Team UUID")
  | some _ =>
    match api.getTeam with
    | Except.error e =>
      ([Call.fetch], ReadOutcome.err ("Unable to read team, got error: " ++ e))
    | Except.ok team =>
      if team.uuid = uuidNil then ([Call.fetch], ReadOutcome.removed)
      else
        ([Call.fetch],
          ReadOutcome.ok team.uuid (team.permissions.map Permission.name))

/-- `TeamPermissionsResource.Update` (team_permissions_resource.go:197-283):
parse the team UUID, grant `desired − current`, revoke `current − desired`
(each loop aborting on the first error), then read the team back; on
success persisted state is the permission names the server reported. -/
def Update (parse : String → Option String) (api : TeamAPI)
    (planTeam : String)
    (currentPermissions desiredPermissions : List String) :
    List Call × Except String (String × List String) :=
  match parse planTeam with
  | none => ([], Except.error "Invalid Team UUID")
  | some teamUUID =>
    let currentMap := fun p => currentPermissions.contains p
    let desiredMap := fun p => desiredPermissions.contains p
    let addRes := permCallLoop api.addErr Call.grant currentMap
      teamAddMsg desiredPermissions
    match addRes.2 with
    | some e => (addRes.1, Except.error e)
    | none =>
      let remRes := permCallLoop api.removeErr Call.revoke desiredMap
        teamRemoveMsg currentPermissions
      match remRes.2 with
      | some e => (addRes.1 ++ remRes.1, Except.error e)
      | none =>
        match api.getTeam with
        | Except.error e =>
          (addRes.1 ++ remRes.1 ++ [Call.fetch],
            Except.error ("Unable to read team after update, got error: " ++ e))
        | Except.ok team =>
          (addRes.1 ++ remRes.1 ++ [Call.fetch],
            Except.ok (teamUUID, team.permissions.map Permission.name))

/-- `TeamPermissionsResource.Delete` (team_permissions_resource.go:285-318):
parse the team UUID, then revoke every permission recorded in state,
aborting on the first error.  `none` = success (no diagnostic). -/
def Delete (parse : String → Option String) (api : TeamAPI)
    (stateTeam : String) (permissions : List String) :
    List Call × Option String :=
  match parse stateTeam with
  | none => ([], some "Invalid Team UUID")
  | some _ =>
    permCallLoop api.removeErr Call.revoke (fun _ => false)
      teamRemoveMsg permissions

/-- `TeamPermissionsResource.ImportState`
(team_permissions_resource.go:320-333): parse the import ID as a team UUID
and set both the `id` and `team` attributes; no remote call is ever made. -/
def ImportState (parse : String → Option String) (reqID : String) :
    List Call × Except String (String × String) :=
  match parse reqID with
  | none => ([], Except.error "Invalid Import ID")
  | some teamUUID => ([], Except.ok (teamUUID, teamUUID))

end TeamPermissionsResource

namespace ManagedUserPermissionsResource

/-- `ManagedUserPermissionsResource.getUserPermissions`
(managed_user_permissions_resource.go:168-216): fetch the managed-user
list and search it for `username`; found users yield `some` of their
permission names (possibly the empty list), an absent user yields the Go
`nil, nil` — modelled `Except.ok none`. -/
def getUserPermissions (api : UserAPI) (username : String) :
    List Call × Except String (Option (List String)) :=
  match api.managedUsers with
  | Except.error e => ([Call.fetch], Except.error e)
  | Except.ok users =>
    match users.find? (fun user => user.username == username) with
    | some user =>
      ([Call.fetch], Except.ok (some (user.permissions.map Permission.name)))
    | none => ([Call.fetch], Except.ok none)

/-- `ManagedUserPermissionsResource.Create`
(managed_user_permissions_resource.go:218-263): grant every desired
permission (aborting on the first error), then read back the user's
permissions; the Go `nil` slice of an absent user becomes the empty set
in state (`Option.getD []`). -/
def Create (api : UserAPI) (username : String)
    (desiredPermissions : List String) :
    List Call × Except String (String × List String) :=
  let addRes := permCallLoop api.addErr Call.grant (fun _ => false)
    userAddMsg desiredPermissions
  match addRes.2 with
  | some e => (addRes.1, Except.error e)
  | none =>
    let g := getUserPermissions api username
    match g.2 with
    | Except.error e =>
      (addRes.1 ++ g.1,
        Except.error ("Unable to read user permissions after create, got error: " ++ e))
    | Except.ok actualPermissions =>
      (addRes.1 ++ g.1, Except.ok (username, actualPermissions.getD []))

/-- `ManagedUserPermissionsResource.Read`
(managed_user_permissions_resource.go:265-299): read the user's
permissions; a `nil` result (absent user) removes the resource from state,
otherwise state becomes the returned list. -/
def Read (api : UserAPI) (username : String) : List Call × ReadOutcome :=
  let g := getUserPermissions api username
  match g.2 with
  | Except.error e =>
    (g.1, ReadOutcome.err ("Unable to read user permissions, got error: " ++ e))
  | Except.ok none => (g.1, ReadOutcome.removed)
  | Except.ok (some permissions) => (g.1, ReadOutcome.ok username permissions)

/-- `ManagedUserPermissionsResource.Update`
(managed_user_permissions_resource.go:301-371): grant `desired − current`,
revoke `current − desired` (each loop aborting on the first error), then
read back the user's permissions as the new state. -/
def Update (api : UserAPI) (username : String)
    (currentPermissions desiredPermissions : List String) :
    List Call × Except String (String × List String) :=
  let currentMap := fun p => currentPermissions.contains p
  let desiredMap := fun p => desiredPermissions.contains p
  let addRes := permCallLoop api.addErr Call.grant currentMap
    userAddMsg desiredPermissions
  match addRes.2 with
  | some e => (addRes.1, Except.error e)
  | none =>
    let remRes := permCallLoop api.removeErr Call.revoke desiredMap
      userRemoveMsg currentPermissions
    match remRes.2 with
    | some e => (addRes.1 ++ remRes.1, Except.error e)
    | none =>
      let g := getUserPermissions api username
      match g.2 with
      | Except.error e =>
        (addRes.1 ++ remRes.1 ++ g.1,
          Except.error ("Unable to read user permissions after update, got error: " ++ e))
      | Except.ok actualPermissions =>
        (addRes.1 ++ remRes.1 ++ g.1,
          Except.ok (username, actualPermissions.getD []))

/-- `ManagedUserPermissionsResource.Delete`
(managed_user_permissions_resource.go:373-399): revoke every permission
recorded in state, aborting on the first error. -/
def Delete (api : UserAPI) (username : String)
    (permissions : List String) : List Call × Option String :=
  permCallLoop api.removeErr Call.revoke (fun _ => false)
    userRemoveMsg permissions

end ManagedUserPermissionsResource

/-- `strings.Split(id, "/")` for the single-character separator `'/'`,
on strings modelled as character lists: `Split` of the empty string is
`[""]`, and in general the result has (number of slashes + 1) parts. -/
def splitOnSlash : List Char → List (List Char)
  | [] => [[]]
  | c :: rest =>
    if c = '/' then [] :: splitOnSlash rest
    else
      match splitOnSlash rest with
      | [] => [[c]]
      | p :: ps => (c :: p) :: ps

/-- `parseCompositeID` (helpers.go:12-19): split the ID on `/`; anything
other than exactly two parts is an error, otherwise return the two parts. -/
def parseCompositeID (id part1Name part2Name : List Char) :
    Except (List Char) (List Char × List Char) :=
  let parts := splitOnSlash id
  match parts with
  | [a, b] => Except.ok (a, b)
  | _ =>
    Except.error
      (String.toList "expected format '" ++ part1Name ++ String.toList "/" ++
        part2Name ++ String.toList "', got: " ++ id)

/-! ## Helper lemmas -/

/-- When every processed (non-skipped) permission's call succeeds, the loop
issues one call per non-skipped permission, in list order, and no
diagnostic. -/
lemma permCallLoop_success (callErr : String → Option String)
    (mk : String → Call) (skip : String → Bool)
    (msg : String → String → String) (xs : List String)
    (h : ∀ p ∈ xs, skip p = false → callErr p = none) :
    permCallLoop callErr mk skip msg xs =
      ((xs.filter (fun p => !skip p)).map mk, none) := by
  induction xs with
  | nil => rfl
  | cons p rest ih =>
    have ih' := ih (fun q hq hsq => h q (List.mem_cons_of_mem _ hq) hsq)
    by_cases hs : skip p
    · simp [permCallLoop, hs, List.filter_cons, ih']
    · have hsf : skip p = false := by simpa using hs
      have hc : callErr p = none := h p (List.mem_cons_self _ _) hsf
      simp [permCallLoop, hs, hc, List.filter_cons, ih']

/-- When the first non-skipped permission whose call fails is `p` (with the
non-skipped permissions before it all succeeding), the loop issues exactly
the calls up to and including `p`, and reports `msg p e`. -/
lemma permCallLoop_fail (callErr : String → Option String)
    (mk : String → Call) (skip : String → Bool)
    (msg : String → String → String) (xs : List String)
    (pre post : List String) (p e : String)
    (hsplit : xs.filter (fun q => !skip q) = pre ++ p :: post)
    (hpre : ∀ q ∈ pre, callErr q = none)
    (hp : callErr p = some e) :
    permCallLoop callErr mk skip msg xs =
      (pre.map mk ++ [mk p], some (msg p e)) := by
  induction xs generalizing pre with
  | nil => simp at hsplit
  | cons y rest ih =>
    by_cases hs : skip y
    · rw [List.filter_cons] at hsplit
      simp [hs] at hsplit
      simpa [permCallLoop, hs] using ih pre hsplit hpre
    · rw [List.filter_cons] at hsplit
      simp [hs] at hsplit
      cases pre with
      | nil =>
        simp at hsplit
        obtain ⟨hyp, _⟩ := hsplit
        subst hyp
        simp [permCallLoop, hs, hp]
      | cons q pre' =>
        simp at hsplit
        obtain ⟨hyq, hrest⟩ := hsplit
        subst hyq
        have hq : callErr y = none := hpre y (List.mem_cons_self _ _)
        have ih' := ih pre' hrest (fun r hr => hpre r (List.mem_cons_of_mem _ hr))
        simp [permCallLoop, hs, hq, ih']

/-- `Call.grant` is injective. -/
lemma grant_injective : Function.Injective Call.grant := by
  intro a b h
  injection h

/-- `Call.revoke` is injective. -/
lemma revoke_injective : Function.Injective Call.revoke := by
  intro a b h
  injection h

/-- Counting a grant call in a mapped grant trace counts the permission. -/
lemma count_grant_map_grant (A : List String) (p : String) :
    (A.map Call.grant).count (Call.grant p) = A.count p :=
  List.count_map_of_injective A Call.grant grant_injective p

/-- Counting a revoke call in a mapped revoke trace counts the permission. -/
lemma count_revoke_map_revoke (A : List String) (p : String) :
    (A.map Call.revoke).count (Call.revoke p) = A.count p :=
  List.count_map_of_injective A Call.revoke revoke_injective p

/-- A grant call never occurs in a mapped revoke trace. -/
lemma count_grant_map_revoke (A : List String) (p : String) :
    (A.map Call.revoke).count (Call.grant p) = 0 := by
  apply List.count_eq_zero_of_not_mem
  simp [List.mem_map]

/-- A revoke call never occurs in a mapped grant trace. -/
lemma count_revoke_map_grant (A : List String) (p : String) :
    (A.map Call.grant).count (Call.revoke p) = 0 := by
  apply List.count_eq_zero_of_not_mem
  simp [List.mem_map]

/-- A trace made of grants followed by revoke/fetch calls has all grants
before all revokes. -/
lemma grantsBeforeRevokes_of_shape (gs rs : List Call)
    (hgs : ∀ c ∈ gs, ∃ p, c = Call.grant p)
    (hrs : ∀ c ∈ rs, ∀ p, c ≠ Call.grant p) :
    grantsBeforeRevokes (gs ++ rs) := by
  intro i j hi hj hgi hrj
  obtain ⟨p, hpi⟩ := hgi
  obtain ⟨q, hqj⟩ := hrj
  have hilt : i < gs.length := by
    by_contra hge
    push_neg at hge
    have hjr : i - gs.length < rs.length := by
      have := hi
      simp [List.length_append] at this
      omega
    have heq : (gs ++ rs).get ⟨i, hi⟩ = rs.get ⟨i - gs.length, hjr⟩ :=
      List.get_append_right gs rs hge
    have hmem : rs.get ⟨i - gs.length, hjr⟩ ∈ rs := List.get_mem _ _ _
    exact hrs _ hmem p (by rw [← heq]; exact hpi)
  have hjge : gs.length ≤ j := by
    by_contra hlt
    push_neg at hlt
    have heq : (gs ++ rs).get ⟨j, hj⟩ = gs.get ⟨j, hlt⟩ :=
      List.get_append_left gs rs hlt
    have hmem : gs.get ⟨j, hlt⟩ ∈ gs := List.get_mem _ _ _
    obtain ⟨r, hr⟩ := hgs _ hmem
    rw [heq, hr] at hqj
    exact Call.noConfusion hqj
  omega

/-- The read-back of `getUserPermissions` always issues exactly the one
fetch call. -/
lemma getUserPermissions_fst (api : UserAPI) (username : String) :
    (ManagedUserPermissionsResource.getUserPermissions api username).1 =
      [Call.fetch] := by
  rcases hm : api.managedUsers with e | users
  · simp [ManagedUserPermissionsResource.getUserPermissions, hm]
  · rcases hf : users.find? (fun user => user.username == username) with _ | usr
    · simp [ManagedUserPermissionsResource.getUserPermissions, hm, hf]
    · simp [ManagedUserPermissionsResource.getUserPermissions, hm, hf]

/-- Trace of a team `Update` whose grant and revoke calls all succeed:
the grants of `desired − current`, then the revokes of
`current − desired`, then the fetch — whatever the fetch answers. -/
lemma teamUpdate_trace (parse : String → Option String) (api : TeamAPI)
    (planTeam u : String) (current desired : List String)
    (hp : parse planTeam = some u)
    (hadd : ∀ p ∈ desired, current.contains p = false → api.addErr p = none)
    (hrem : ∀ p ∈ current, desired.contains p = false → api.removeErr p = none) :
    (TeamPermissionsResource.Update parse api planTeam current desired).1 =
      (desired.filter (fun p => !current.contains p)).map Call.grant ++
        (current.filter (fun p => !desired.contains p)).map Call.revoke ++
        [Call.fetch] := by
  have hA := permCallLoop_success api.addErr Call.grant
    (fun p => current.contains p) teamAddMsg desired hadd
  have hR := permCallLoop_success api.removeErr Call.revoke
    (fun p => desired.contains p) teamRemoveMsg current hrem
  simp only [Bool.not_eq_true] at hA hR
  simp at hA hR
  cases hg : api.getTeam with
  | error e => simp [TeamPermissionsResource.Update, hp, hA, hR, hg]
  | ok team => simp [TeamPermissionsResource.Update, hp, hA, hR, hg]

/-- A team `Update` whose grant and revoke calls all succeed and whose
fetch answers `team` returns that trace together with the fetched
permission names as the new state. -/
lemma teamUpdate_success (parse : String → Option String) (api : TeamAPI)
    (planTeam u : String) (current desired : List String) (team : Team)
    (hp : parse planTeam = some u)
    (hadd : ∀ p ∈ desired, current.contains p = false → api.addErr p = none)
    (hrem : ∀ p ∈ current, desired.contains p = false → api.removeErr p = none)
    (hget : api.getTeam = Except.ok team) :
    TeamPermissionsResource.Update parse api planTeam current desired =
      ((desired.filter (fun p => !current.contains p)).map Call.grant ++
        (current.filter (fun p => !desired.contains p)).map Call.revoke ++
        [Call.fetch],
       Except.ok (u, team.permissions.map Permission.name)) := by
  have hA := permCallLoop_success api.addErr Call.grant
    (fun p => current.contains p) teamAddMsg desired hadd
  have hR := permCallLoop_success api.removeErr Call.revoke
    (fun p => desired.contains p) teamRemoveMsg current hrem
  simp at hA hR
  simp [TeamPermissionsResource.Update, hp, hA, hR, hget]

/-- Trace of a user `Update` whose grant and revoke calls all succeed. -/
lemma userUpdate_trace (api : UserAPI) (username : String)
    (current desired : List String)
    (hadd : ∀ p ∈ desired, current.contains p = false → api.addErr p = none)
    (hrem : ∀ p ∈ current, desired.contains p = false → api.removeErr p = none) :
    (ManagedUserPermissionsResource.Update api username current desired).1 =
      (desired.filter (fun p => !current.contains p)).map Call.grant ++
        (current.filter (fun p => !desired.contains p)).map Call.revoke ++
        [Call.fetch] := by
  have hA := permCallLoop_success api.addErr Call.grant
    (fun p => current.contains p) userAddMsg desired hadd
  have hR := permCallLoop_success api.removeErr Call.revoke
    (fun p => desired.contains p) userRemoveMsg current hrem
  have hf := getUserPermissions_fst api username
  simp at hA hR
  cases hg : (ManagedUserPermissionsResource.getUserPermissions api username).2 with
  | error e => simp [ManagedUserPermissionsResource.Update, hA, hR, hg, hf]
  | ok r => simp [ManagedUserPermissionsResource.Update, hA, hR, hg, hf]

/-- A user `Update` whose grant and revoke calls all succeed and whose
read-back answers `r` returns the fetched permissions (the `nil` slice of
an absent user becoming the empty list) as the new state. -/
lemma userUpdate_success (api : UserAPI) (username : String)
    (current desired : List String) (r : Option (List String))
    (hadd : ∀ p ∈ desired, current.contains p = false → api.addErr p = none)
    (hrem : ∀ p ∈ current, desired.contains p = false → api.removeErr p = none)
    (hget : (ManagedUserPermissionsResource.getUserPermissions api username).2 =
      Except.ok r) :
    ManagedUserPermissionsResource.Update api username current desired =
      ((desired.filter (fun p => !current.contains p)).map Call.grant ++
        (current.filter (fun p => !desired.contains p)).map Call.revoke ++
        [Call.fetch],
       Except.ok (username, r.getD [])) := by
  have hA := permCallLoop_success api.addErr Call.grant
    (fun p => current.contains p) userAddMsg desired hadd
  have hR := permCallLoop_success api.removeErr Call.revoke
    (fun p => desired.contains p) userRemoveMsg current hrem
  have hf := getUserPermissions_fst api username
  simp at hA hR
  simp [ManagedUserPermissionsResource.Update, hA, hR, hget, hf]

/-- The grants-then-revokes-then-fetch trace of the set difference is an
`exactDiffCalls` trace. -/
lemma exactDiffCalls_shape (current desired : List String)
    (hcn : current.Nodup) (hdn : desired.Nodup) :
    exactDiffCalls current desired
      ((desired.filter (fun p => !current.contains p)).map Call.grant ++
        (current.filter (fun p => !desired.contains p)).map Call.revoke ++
        [Call.fetch]) := by
  set D := desired.filter (fun p => !current.contains p) with hD
  set C := current.filter (fun p => !desired.contains p) with hC
  have hDn : D.Nodup := hdn.filter _
  have hCn : C.Nodup := hcn.filter _
  have hmemD : ∀ p, p ∈ D ↔ p ∈ desired ∧ p ∉ current := by
    intro p
    simp [hD, List.mem_filter]
  have hmemC : ∀ p, p ∈ C ↔ p ∈ current ∧ p ∉ desired := by
    intro p
    simp [hC, List.mem_filter]
  refine ⟨?_, ?_, ?_, ?_⟩
  · intro p hpd hpc
    have hpD : p ∈ D := (hmemD p).mpr ⟨hpd, hpc⟩
    simp [count_grant_map_grant, count_grant_map_revoke,
      List.count_eq_one_of_mem hDn hpD, List.count_singleton]
  · intro p hpc hpd
    have hpC : p ∈ C := (hmemC p).mpr ⟨hpc, hpd⟩
    simp [count_revoke_map_revoke, count_revoke_map_grant,
      List.count_eq_one_of_mem hCn hpC, List.count_singleton]
  · intro p hpc hpd
    have hpD : p ∉ D := by
      intro hmem
      exact ((hmemD p).mp hmem).2 hpc
    have hpC : p ∉ C := by
      intro hmem
      exact ((hmemC p).mp hmem).2 hpd
    constructor
    · simp [count_grant_map_grant, count_grant_map_revoke,
        List.count_eq_zero_of_not_mem hpD, List.count_singleton]
    · simp [count_revoke_map_revoke, count_revoke_map_grant,
        List.count_eq_zero_of_not_mem hpC, List.count_singleton]
  · rw [List.append_assoc]
    apply grantsBeforeRevokes_of_shape
    · intro c hc
      obtain ⟨p, _, hp⟩ := List.mem_map.mp hc
      exact ⟨p, hp.symm⟩
    · intro c hc p hcp
      rcases List.mem_append.mp hc with hcr | hcf
      · obtain ⟨q, _, hq⟩ := List.mem_map.mp hcr
        rw [← hq] at hcp
        exact Call.noConfusion hcp
      · rw [List.mem_singleton.mp hcf] at hcp
        exact Call.noConfusion hcp

/-- Claim C1: for every pair of permission sets `current` and `desired`, a
reconcile (team or managed-user `Update`) whose calls all succeed issues
exactly one grant call for each permission in `desired − current`, exactly
one revoke call for each permission in `current − desired`, and no grant
or revoke call for a permission in both sets; all grant calls are issued
before any revoke call. -/
theorem update_issues_exact_set_difference
    (parse : String → Option String) (tapi : TeamAPI) (uapi : UserAPI)
    (planTeam u username : String) (current desired : List String)
    (hp : parse planTeam = some u)
    (hcn : current.Nodup) (hdn : desired.Nodup)
    (htadd : ∀ p, tapi.addErr p = none) (htrem : ∀ p, tapi.removeErr p = none)
    (huadd : ∀ p, uapi.addErr p = none) (hurem : ∀ p, uapi.removeErr p = none) :
    exactDiffCalls current desired
      (TeamPermissionsResource.Update parse tapi planTeam current desired).1 ∧
    exactDiffCalls current desired
      (ManagedUserPermissionsResource.Update uapi username current desired).1 := by
  constructor
  · rw [teamUpdate_trace parse tapi planTeam u current desired hp
      (fun p _ _ => htadd p) (fun p _ _ => htrem p)]
    exact exactDiffCalls_shape current desired hcn hdn
  · rw [userUpdate_trace uapi username current desired
      (fun p _ _ => huadd p) (fun p _ _ => hurem p)]
    exact exactDiffCalls_shape current desired hcn hdn

/-- Witness for C1 on spec test 3 (`current = {A, B}`, `desired = {B, C}`):
grant of C issued once, revoke of A issued once, B untouched. -/
theorem update_issues_exact_set_difference_witness :
    (TeamPermissionsResource.Update parseAccept teamApiBC "t"
      ["A", "B"] ["B", "C"]).1.count (Call.grant "C") = 1 ∧
    (TeamPermissionsResource.Update parseAccept teamApiBC "t"
      ["A", "B"] ["B", "C"]).1.count (Call.revoke "A") = 1 ∧
    (TeamPermissionsResource.Update parseAccept teamApiBC "t"
      ["A", "B"] ["B", "C"]).1.count (Call.grant "B") = 0 ∧
    (ManagedUserPermissionsResource.Update userApiAliceBC "alice"
      ["A", "B"] ["B", "C"]).1.count (Call.revoke "B") = 0 := by
  have h := update_issues_exact_set_difference parseAccept teamApiBC
    userApiAliceBC "t" "t" "alice" ["A", "B"] ["B", "C"] (by rfl)
    (by decide) (by decide) (fun p => rfl) (fun p => rfl) (fun p => rfl)
    (fun p => rfl)
  refine ⟨h.1.1 "C" (by decide) (by decide),
    h.1.2.1 "A" (by decide) (by decide),
    (h.1.2.2.1 "B" (by decide) (by decide)).1,
    (h.2.2.2.1 "B" (by decide) (by decide)).2⟩

/-- A permission list included in `ys` leaves nothing in the
`not-contained-in-ys` filter. -/
lemma filter_not_contains_eq_nil (xs ys : List String)
    (h : ∀ p, p ∈ xs → p ∈ ys) :
    xs.filter (fun p => !ys.contains p) = [] := by
  apply List.filter_eq_nil_iff.mpr
  intro p hp
  simp [h p hp]

/-- Claim C2 (amended): when `current` equals `desired` (as sets), a
reconcile issues zero grant and zero revoke calls, still performs the
re-fetch, and the re-fetched set becomes the new recorded state; and —
*provided the re-fetched set again equals `desired` as a set* — a second
reconcile whose `current` is the first one's post-reconcile result is
again a no-op apart from the re-fetch.  (Without that proviso the second
part is false: see the counterexample theorem.) -/
theorem noop_reconcile_refetches_only
    (parse : String → Option String) (tapi : TeamAPI) (uapi : UserAPI)
    (planTeam u username : String) (current desired : List String)
    (team : Team) (r : Option (List String))
    (hp : parse planTeam = some u)
    (heq : ∀ p, p ∈ current ↔ p ∈ desired)
    (hget : tapi.getTeam = Except.ok team)
    (huget : (ManagedUserPermissionsResource.getUserPermissions uapi username).2 =
      Except.ok r) :
    TeamPermissionsResource.Update parse tapi planTeam current desired =
      ([Call.fetch], Except.ok (u, team.permissions.map Permission.name)) ∧
    ManagedUserPermissionsResource.Update uapi username current desired =
      ([Call.fetch], Except.ok (username, r.getD [])) ∧
    ((∀ p, p ∈ team.permissions.map Permission.name ↔ p ∈ desired) →
      (TeamPermissionsResource.Update parse tapi planTeam
        (team.permissions.map Permission.name) desired).1 = [Call.fetch]) ∧
    ((∀ p, p ∈ r.getD [] ↔ p ∈ desired) →
      (ManagedUserPermissionsResource.Update uapi username
        (r.getD []) desired).1 = [Call.fetch]) := by
  have hsub₁ : ∀ p, p ∈ desired → p ∈ current := fun p hp => (heq p).mpr hp
  have hsub₂ : ∀ p, p ∈ current → p ∈ desired := fun p hp => (heq p).mp hp
  have hadd : ∀ p ∈ desired, current.contains p = false → tapi.addErr p = none := by
    intro p hpd hc
    exfalso
    have := hsub₁ p hpd
    simp [this] at hc
  have hrem : ∀ p ∈ current, desired.contains p = false → tapi.removeErr p = none := by
    intro p hpc hc
    exfalso
    have := hsub₂ p hpc
    simp [this] at hc
  have huadd : ∀ p ∈ desired, current.contains p = false → uapi.addErr p = none := by
    intro p hpd hc
    exfalso
    have := hsub₁ p hpd
    simp [this] at hc
  have hurem : ∀ p ∈ current, desired.contains p = false → uapi.removeErr p = none := by
    intro p hpc hc
    exfalso
    have := hsub₂ p hpc
    simp [this] at hc
  have hfd : desired.filter (fun p => !current.contains p) = [] :=
    filter_not_contains_eq_nil desired current hsub₁
  have hfc : current.filter (fun p => !desired.contains p) = [] :=
    filter_not_contains_eq_nil current desired hsub₂
  refine ⟨?_, ?_, ?_, ?_⟩
  · rw [teamUpdate_success parse tapi planTeam u current desired team hp hadd hrem hget,
      hfd, hfc]
    rfl
  · rw [userUpdate_success uapi username current desired r huadd hurem huget,
      hfd, hfc]
    rfl
  · intro hiff
    have hsub₁' : ∀ p, p ∈ desired → p ∈ team.permissions.map Permission.name :=
      fun p hp => (hiff p).mpr hp
    have hsub₂' : ∀ p, p ∈ team.permissions.map Permission.name → p ∈ desired :=
      fun p hp => (hiff p).mp hp
    have hadd' : ∀ p ∈ desired,
        (team.permissions.map Permission.name).contains p = false →
        tapi.addErr p = none := by
      intro p hpd hc
      exfalso
      have := hsub₁' p hpd
      simp [this] at hc
    have hrem' : ∀ p ∈ team.permissions.map Permission.name,
        desired.contains p = false → tapi.removeErr p = none := by
      intro p hpc hc
      exfalso
      have := hsub₂' p hpc
      simp [this] at hc
    rw [teamUpdate_trace parse tapi planTeam u _ desired hp hadd' hrem',
      filter_not_contains_eq_nil desired _ hsub₁',
      filter_not_contains_eq_nil _ desired hsub₂']
    rfl
  · intro hiff
    have hsub₁' : ∀ p, p ∈ desired → p ∈ r.getD [] := fun p hp => (hiff p).mpr hp
    have hsub₂' : ∀ p, p ∈ r.getD [] → p ∈ desired := fun p hp => (hiff p).mp hp
    have hadd' : ∀ p ∈ desired, (r.getD []).contains p = false →
        uapi.addErr p = none := by
      intro p hpd hc
      exfalso
      have := hsub₁' p hpd
      simp [this] at hc
    have hrem' : ∀ p ∈ r.getD [], desired.contains p = false →
        uapi.removeErr p = none := by
      intro p hpc hc
      exfalso
      have := hsub₂' p hpc
      simp [this] at hc
    rw [userUpdate_trace uapi username _ desired hadd' hrem',
      filter_not_contains_eq_nil desired _ hsub₁',
      filter_not_contains_eq_nil _ desired hsub₂']
    rfl

/-- Counterexample to claim C2 as stated: with `current = desired = {A}`
the reconcile issues no grant/revoke and records the server's answer, but
when the server's re-fetch reports `{B}` instead of `{A}`, the *second*
reconcile (its `current` being that post-reconcile result `{B}`) is not a
no-op apart from the re-fetch — it issues a grant and a revoke. -/
theorem noop_reconcile_counterexample :
    (TeamPermissionsResource.Update parseAccept teamApiOnlyB "t"
      ["A"] ["A"]).2 = Except.ok ("t", ["B"]) ∧
    (TeamPermissionsResource.Update parseAccept teamApiOnlyB "t"
      ["B"] ["A"]).1 =
      [Call.grant "A", Call.revoke "B", Call.fetch] ∧
    (TeamPermissionsResource.Update parseAccept teamApiOnlyB "t"
      ["B"] ["A"]).1 ≠ [Call.fetch] := by
  refine ⟨by rfl, by rfl, ?_⟩
  decide

/-- Witness for the amended C2: `current = desired = {A}`, a server whose
fetch reports exactly `{A}` — both reconciles issue only the fetch. -/
theorem noop_reconcile_refetches_only_witness :
    TeamPermissionsResource.Update parseAccept teamApiA "t" ["A"] ["A"] =
      ([Call.fetch], Except.ok ("t", ["A"])) ∧
    ManagedUserPermissionsResource.Update userApiAliceA "alice" ["A"] ["A"] =
      ([Call.fetch], Except.ok ("alice", ["A"])) ∧
    (TeamPermissionsResource.Update parseAccept teamApiA "t" ["A"] ["A"]).1 =
      [Call.fetch] := by
  have h := noop_reconcile_refetches_only parseAccept teamApiA userApiAliceA
    "t" "t" "alice" ["A"] ["A"] { uuid := "t", permissions := [⟨"A"⟩] }
    (some ["A"]) (by rfl) (fun p => Iff.rfl) (by rfl) (by rfl)
  exact ⟨h.1, h.2.1, by rw [h.1]⟩

/-- Claim C3: if a grant or revoke call fails during a team reconcile,
processing stops at that call — the calls issued are exactly those up to
and including the failing one (so no remaining planned call is attempted,
no rollback call is issued, and the re-fetch is not performed) — the
outcome is the error diagnostic (so persisted state is left untouched),
and that diagnostic names the failing permission together with the
underlying error. -/
theorem update_failure_stops_processing
    (parse : String → Option String) (api : TeamAPI)
    (planTeam u : String) (current desired : List String)
    (hp : parse planTeam = some u) :
    (∀ pre p post e,
      desired.filter (fun q => !current.contains q) = pre ++ p :: post →
      (∀ q ∈ pre, api.addErr q = none) → api.addErr p = some e →
      TeamPermissionsResource.Update parse api planTeam current desired =
        (pre.map Call.grant ++ [Call.grant p],
         Except.error (teamAddMsg p e))) ∧
    (∀ pre p post e,
      (∀ q ∈ desired, current.contains q = false → api.addErr q = none) →
      current.filter (fun q => !desired.contains q) = pre ++ p :: post →
      (∀ q ∈ pre, api.removeErr q = none) → api.removeErr p = some e →
      TeamPermissionsResource.Update parse api planTeam current desired =
        ((desired.filter (fun q => !current.contains q)).map Call.grant ++
          (pre.map Call.revoke ++ [Call.revoke p]),
         Except.error (teamRemoveMsg p e))) := by
  constructor
  · intro pre p post e hsplit hpre hfail
    have hA := permCallLoop_fail api.addErr Call.grant
      (fun q => current.contains q) teamAddMsg desired pre post p e
      hsplit hpre hfail
    simp at hA
    simp [TeamPermissionsResource.Update, hp, hA]
  · intro pre p post e hadd hsplit hpre hfail
    have hA := permCallLoop_success api.addErr Call.grant
      (fun q => current.contains q) teamAddMsg desired hadd
    have hR := permCallLoop_fail api.removeErr Call.revoke
      (fun q => desired.contains q) teamRemoveMsg current pre post p e
      hsplit hpre hfail
    simp at hA hR
    simp [TeamPermissionsResource.Update, hp, hA, hR]

/-- Witness for C3 on spec test 6: of three planned grants A, B, C the
second (B) fails with error `boom`: A's grant was issued and stands, C is
never attempted, no revoke and no fetch happen, and the diagnostic names
B and the underlying error. -/
theorem update_failure_stops_processing_witness :
    TeamPermissionsResource.Update parseAccept teamApiFailB "t"
      [] ["A", "B", "C"] =
      ([Call.grant "A", Call.grant "B"],
       Except.error "Unable to add permission B to team, got error: boom") := by
  have h := (update_failure_stops_processing parseAccept teamApiFailB
    "t" "t" [] ["A", "B", "C"] (by rfl)).1 ["A"] "B" ["C"] "boom"
    (by rfl) (by decide) (by rfl)
  simpa [teamAddMsg] using h

/-- Claim C4: whenever a reconcile (team or managed-user, Create or
Update) succeeds, the permission set it persists is exactly the one the
server reported on the final re-fetch — not the locally computed desired
set.  In particular, anything absent from the server's answer is absent
from the recorded state. -/
theorem recorded_state_equals_server_report :
    (∀ (parse : String → Option String) (api : TeamAPI)
        (planTeam : String) (current desired : List String)
        (id : String) (perms : List String),
      (TeamPermissionsResource.Update parse api planTeam current desired).2 =
        Except.ok (id, perms) →
      ∃ team, api.getTeam = Except.ok team ∧
        perms = team.permissions.map Permission.name) ∧
    (∀ (parse : String → Option String) (api : TeamAPI)
        (planTeam : String) (desired : List String)
        (id : String) (perms : List String),
      (TeamPermissionsResource.Create parse api planTeam desired).2 =
        Except.ok (id, perms) →
      ∃ team, api.getTeam = Except.ok team ∧
        perms = team.permissions.map Permission.name) ∧
    (∀ (api : UserAPI) (username : String) (current desired : List String)
        (id : String) (perms : List String),
      (ManagedUserPermissionsResource.Update api username current desired).2 =
        Except.ok (id, perms) →
      ∃ r, (ManagedUserPermissionsResource.getUserPermissions api username).2 =
        Except.ok r ∧ perms = r.getD []) ∧
    (∀ (api : UserAPI) (username : String) (desired : List String)
        (id : String) (perms : List String),
      (ManagedUserPermissionsResource.Create api username desired).2 =
        Except.ok (id, perms) →
      ∃ r, (ManagedUserPermissionsResource.getUserPermissions api username).2 =
        Except.ok r ∧ perms = r.getD []) := by
  refine ⟨?_, ?_, ?_, ?_⟩
  · intro parse api planTeam current desired id perms h
    unfold TeamPermissionsResource.Update at h
    rcases hp : parse planTeam with _ | u
    · rw [hp] at h
      simp at h
    · rw [hp] at h
      dsimp only at h
      rcases haE : (permCallLoop api.addErr Call.grant
          (fun p => current.contains p) teamAddMsg desired).2 with _ | e
      case some =>
        rw [haE] at h
        simp at h
      case none =>
        rw [haE] at h
        dsimp only at h
        rcases hrE : (permCallLoop api.removeErr Call.revoke
            (fun p => desired.contains p) teamRemoveMsg current).2 with _ | e
        case some =>
          rw [hrE] at h
          simp at h
        case none =>
          rw [hrE] at h
          dsimp only at h
          rcases hg : api.getTeam with e | team
          · rw [hg] at h
            simp at h
          · rw [hg] at h
            simp at h
            exact ⟨team, rfl, h.2.symm⟩
  · intro parse api planTeam desired id perms h
    unfold TeamPermissionsResource.Create at h
    rcases hp : parse planTeam with _ | u
    · rw [hp] at h
      simp at h
    · rw [hp] at h
      dsimp only at h
      rcases haE : (permCallLoop api.addErr Call.grant (fun _ => false)
          teamAddMsg desired).2 with _ | e
      case some =>
        rw [haE] at h
        simp at h
      case none =>
        rw [haE] at h
        dsimp only at h
        rcases hg : api.getTeam with e | team
        · rw [hg] at h
          simp at h
        · rw [hg] at h
          simp at h
          exact ⟨team, rfl, h.2.symm⟩
  · intro api username current desired id perms h
    unfold ManagedUserPermissionsResource.Update at h
    dsimp only at h
    rcases haE : (permCallLoop api.addErr Call.grant
        (fun p => current.contains p) userAddMsg desired).2 with _ | e
    case some =>
      rw [haE] at h
      simp at h
    case none =>
      rw [haE] at h
      dsimp only at h
      rcases hrE : (permCallLoop api.removeErr Call.revoke
          (fun p => desired.contains p) userRemoveMsg current).2 with _ | e
      case some =>
        rw [hrE] at h
        simp at h
      case none =>
        rw [hrE] at h
        dsimp only at h
        rcases hg : (ManagedUserPermissionsResource.getUserPermissions
            api username).2 with e | r
        · rw [hg] at h
          simp at h
        · rw [hg] at h
          simp at h
          exact ⟨r, rfl, h.2.symm⟩
  · intro api username desired id perms h
    unfold ManagedUserPermissionsResource.Create at h
    dsimp only at h
    rcases haE : (permCallLoop api.addErr Call.grant (fun _ => false)
        userAddMsg desired).2 with _ | e
    case some =>
      rw [haE] at h
      simp at h
    case none =>
      rw [haE] at h
      dsimp only at h
      rcases hg : (ManagedUserPermissionsResource.getUserPermissions
          api username).2 with e | r
      · rw [hg] at h
        simp at h
      · rw [hg] at h
        simp at h
        exact ⟨r, rfl, h.2.symm⟩

/-- Witness for C4 on spec test 7: both A and B are granted successfully,
but the server's post-reconcile fetch reports only B — the recorded state
is `[B]`, the server's answer, not the desired `[A, B]`. -/
theorem recorded_state_equals_server_report_witness :
    (TeamPermissionsResource.Update parseAccept teamApiOnlyB "t"
      [] ["A", "B"]).2 = Except.ok ("t", ["B"]) ∧
    (∃ team, teamApiOnlyB.getTeam = Except.ok team ∧
      ["B"] = team.permissions.map Permission.name) := by
  refine ⟨by rfl, ?_⟩
  exact (recorded_state_equals_server_report).1 parseAccept teamApiOnlyB
    "t" [] ["A", "B"] "t" ["B"] (by rfl)

/-- Grant-then-fetch trace counts: one grant per desired permission,
no revokes at all. -/
lemma grant_fetch_trace_counts (desired : List String) (hdn : desired.Nodup) :
    (∀ p ∈ desired,
      (desired.map Call.grant ++ [Call.fetch]).count (Call.grant p) = 1) ∧
    (∀ p, (desired.map Call.grant ++ [Call.fetch]).count (Call.revoke p) = 0) := by
  constructor
  · intro p hp
    simp [count_grant_map_grant, List.count_eq_one_of_mem hdn hp,
      List.count_singleton]
  · intro p
    simp [count_revoke_map_grant, List.count_singleton]

/-- Claim C5: on initial creation (`current = ∅`) the resource issues
exactly one grant call per desired permission and zero revoke calls,
followed by the re-fetch, whose answer becomes the recorded state —
for the team resource and for the managed-user resource. -/
theorem create_grants_all_desired
    (parse : String → Option String) (tapi : TeamAPI) (uapi : UserAPI)
    (planTeam u username : String) (desired : List String)
    (team : Team) (r : Option (List String))
    (hp : parse planTeam = some u) (hdn : desired.Nodup)
    (htadd : ∀ p, tapi.addErr p = none)
    (hget : tapi.getTeam = Except.ok team)
    (huadd : ∀ p, uapi.addErr p = none)
    (huget : (ManagedUserPermissionsResource.getUserPermissions uapi username).2 =
      Except.ok r) :
    TeamPermissionsResource.Create parse tapi planTeam desired =
      (desired.map Call.grant ++ [Call.fetch],
       Except.ok (u, team.permissions.map Permission.name)) ∧
    ManagedUserPermissionsResource.Create uapi username desired =
      (desired.map Call.grant ++ [Call.fetch],
       Except.ok (username, r.getD [])) ∧
    (∀ p ∈ desired,
      (TeamPermissionsResource.Create parse tapi planTeam desired).1.count
        (Call.grant p) = 1) ∧
    (∀ p,
      (TeamPermissionsResource.Create parse tapi planTeam desired).1.count
        (Call.revoke p) = 0) ∧
    (∀ p ∈ desired,
      (ManagedUserPermissionsResource.Create uapi username desired).1.count
        (Call.grant p) = 1) ∧
    (∀ p,
      (ManagedUserPermissionsResource.Create uapi username desired).1.count
        (Call.revoke p) = 0) := by
  have hA := permCallLoop_success tapi.addErr Call.grant (fun _ => false)
    teamAddMsg desired (fun p _ _ => htadd p)
  have hUA := permCallLoop_success uapi.addErr Call.grant (fun _ => false)
    userAddMsg desired (fun p _ _ => huadd p)
  simp at hA hUA
  have hteam : TeamPermissionsResource.Create parse tapi planTeam desired =
      (desired.map Call.grant ++ [Call.fetch],
       Except.ok (u, team.permissions.map Permission.name)) := by
    simp [TeamPermissionsResource.Create, hp, hA, hget]
  have huser : ManagedUserPermissionsResource.Create uapi username desired =
      (desired.map Call.grant ++ [Call.fetch],
       Except.ok (username, r.getD [])) := by
    have hf := getUserPermissions_fst uapi username
    simp [ManagedUserPermissionsResource.Create, hUA, huget, hf]
  obtain ⟨hone, hzero⟩ := grant_fetch_trace_counts desired hdn
  refine ⟨hteam, huser, ?_, ?_, ?_, ?_⟩
  · intro p hp'
    rw [hteam]
    exact hone p hp'
  · intro p
    rw [hteam]
    exact hzero p
  · intro p hp'
    rw [huser]
    exact hone p hp'
  · intro p
    rw [huser]
    exact hzero p

/-- Witness for C5 on spec test 1 (`current = ∅`, `desired = {A, B}`):
two grant calls, zero revokes, then the fetch, whose answer is recorded. -/
theorem create_grants_all_desired_witness :
    TeamPermissionsResource.Create parseAccept teamApiBC "t" ["A", "B"] =
      ([Call.grant "A", Call.grant "B", Call.fetch],
       Except.ok ("t", ["B", "C"])) ∧
    ManagedUserPermissionsResource.Create userApiAliceBC "alice" ["A", "B"] =
      ([Call.grant "A", Call.grant "B", Call.fetch],
       Except.ok ("alice", ["B", "C"])) := by
  have h := create_grants_all_desired parseAccept teamApiBC userApiAliceBC
    "t" "t" "alice" ["A", "B"]
    { uuid := "t", permissions := [⟨"B"⟩, ⟨"C"⟩] } (some ["B", "C"])
    (by rfl) (by decide) (fun p => rfl) (by rfl) (fun p => rfl) (by rfl)
  exact ⟨h.1, h.2.1⟩

/-- Claim C6: deleting the permissions resource issues exactly one revoke
call per recorded permission and zero grant calls, and issues no call that
deletes or otherwise modifies the holder entity itself — every call in
the trace is a permission revoke for a recorded permission. -/
theorem delete_revokes_recorded_only
    (parse : String → Option String) (tapi : TeamAPI) (uapi : UserAPI)
    (stateTeam u username : String) (permissions : List String)
    (hp : parse stateTeam = some u) (hn : permissions.Nodup)
    (htrem : ∀ p, tapi.removeErr p = none)
    (hurem : ∀ p, uapi.removeErr p = none) :
    TeamPermissionsResource.Delete parse tapi stateTeam permissions =
      (permissions.map Call.revoke, none) ∧
    ManagedUserPermissionsResource.Delete uapi username permissions =
      (permissions.map Call.revoke, none) ∧
    (∀ p ∈ permissions,
      (permissions.map Call.revoke).count (Call.revoke p) = 1) ∧
    (∀ p, (permissions.map Call.revoke).count (Call.grant p) = 0) ∧
    (∀ c ∈ permissions.map Call.revoke,
      c ≠ Call.deleteHolder ∧ ∃ p ∈ permissions, c = Call.revoke p) := by
  have hR := permCallLoop_success tapi.removeErr Call.revoke (fun _ => false)
    teamRemoveMsg permissions (fun p _ _ => htrem p)
  have hUR := permCallLoop_success uapi.removeErr Call.revoke (fun _ => false)
    userRemoveMsg permissions (fun p _ _ => hurem p)
  simp at hR hUR
  refine ⟨?_, ?_, ?_, ?_, ?_⟩
  · simp [TeamPermissionsResource.Delete, hp, hR]
  · simp [ManagedUserPermissionsResource.Delete, hUR]
  · intro p hp'
    simp [count_revoke_map_revoke, List.count_eq_one_of_mem hn hp']
  · intro p
    simp [count_grant_map_revoke]
  · intro c hc
    obtain ⟨p, hpmem, hpc⟩ := List.mem_map.mp hc
    subst hpc
    exact ⟨fun h => Call.noConfusion h, p, hpmem, rfl⟩

/-- Witness for C6 on spec test 2 (`current = {A, B}`, `desired = ∅`):
the delete issues exactly the two revokes and nothing else. -/
theorem delete_revokes_recorded_only_witness :
    TeamPermissionsResource.Delete parseAccept teamApiBC "t" ["A", "B"] =
      ([Call.revoke "A", Call.revoke "B"], none) ∧
    ManagedUserPermissionsResource.Delete userApiAliceBC "alice" ["A", "B"] =
      ([Call.revoke "A", Call.revoke "B"], none) := by
  have h := delete_revokes_recorded_only parseAccept teamApiBC userApiAliceBC
    "t" "t" "alice" ["A", "B"] (by rfl) (by decide) (fun p => rfl)
    (fun p => rfl)
  exact ⟨h.1, h.2.1⟩

/-- Claim C7: every operation of the team-permissions resource (Create,
Read, Update, Delete, ImportState) rejects an unparseable team UUID with a
fatal diagnostic before issuing any remote call (empty trace), so
persisted state is never touched. -/
theorem malformed_uuid_rejected_before_any_call
    (parse : String → Option String) (api : TeamAPI)
    (holder reqID : String) (current desired permissions : List String)
    (hs : parse holder = none) (hr : parse reqID = none) :
    TeamPermissionsResource.Create parse api holder desired =
      ([], Except.error "Invalid Team UUID") ∧
    TeamPermissionsResource.Read parse api holder =
      ([], ReadOutcome.err "Invalid Team UUID") ∧
    TeamPermissionsResource.Update parse api holder current desired =
      ([], Except.error "Invalid Team UUID") ∧
    TeamPermissionsResource.Delete parse api holder permissions =
      ([], some "Invalid Team UUID") ∧
    TeamPermissionsResource.ImportState parse reqID =
      ([], Except.error "Invalid Import ID") := by
  refine ⟨?_, ?_, ?_, ?_, ?_⟩
  · simp [TeamPermissionsResource.Create, hs]
  · simp [TeamPermissionsResource.Read, hs]
  · simp [TeamPermissionsResource.Update, hs]
  · simp [TeamPermissionsResource.Delete, hs]
  · simp [TeamPermissionsResource.ImportState, hr]

/-- Witness for C7: a rejecting parse makes every operation fail with the
parse diagnostic and an empty call trace. -/
theorem malformed_uuid_rejected_before_any_call_witness :
    TeamPermissionsResource.Update parseReject teamApiBC "oops"
      ["A"] ["B"] = ([], Except.error "Invalid Team UUID") ∧
    TeamPermissionsResource.ImportState parseReject "oops" =
      ([], Except.error "Invalid Import ID") := by
  have h := malformed_uuid_rejected_before_any_call parseReject teamApiBC
    "oops" "oops" ["A"] ["B"] ["C"] (by rfl) (by rfl)
  exact ⟨h.2.2.1, h.2.2.2.2⟩

/-- Claim C8: when a Read's fetch shows the holder does not exist — the
team lookup answers the nil UUID, or the username is absent from the
managed-user list — the resource is removed from persisted state and no
error is reported. -/
theorem read_missing_holder_drops_resource
    (parse : String → Option String) (tapi : TeamAPI) (uapi : UserAPI)
    (stateTeam u username : String) (team : Team)
    (users : List ManagedUserWithPermissions)
    (hp : parse stateTeam = some u)
    (hget : tapi.getTeam = Except.ok team) (hnil : team.uuid = uuidNil)
    (husers : uapi.managedUsers = Except.ok users)
    (habsent : ∀ usr ∈ users, usr.username ≠ username) :
    TeamPermissionsResource.Read parse tapi stateTeam =
      ([Call.fetch], ReadOutcome.removed) ∧
    ManagedUserPermissionsResource.Read uapi username =
      ([Call.fetch], ReadOutcome.removed) := by
  constructor
  · simp [TeamPermissionsResource.Read, hp, hget, hnil]
  · have hfind : users.find? (fun usr => usr.username == username) = none := by
      apply List.find?_eq_none.mpr
      intro usr husr
      simpa using habsent usr husr
    have hg : (ManagedUserPermissionsResource.getUserPermissions
        uapi username).2 = Except.ok none := by
      simp [ManagedUserPermissionsResource.getUserPermissions, husers, hfind]
    have hf := getUserPermissions_fst uapi username
    simp [ManagedUserPermissionsResource.Read, hg, hf]

/-- Witness for C8: a nil-UUID team answer and a managed-user list without
the queried user both remove the resource without error. -/
theorem read_missing_holder_drops_resource_witness :
    TeamPermissionsResource.Read parseAccept teamApiNil "t" =
      ([Call.fetch], ReadOutcome.removed) ∧
    ManagedUserPermissionsResource.Read userApiAliceBC "bob" =
      ([Call.fetch], ReadOutcome.removed) := by
  have h := read_missing_holder_drops_resource parseAccept teamApiNil
    userApiAliceBC "t" "t" "bob" { uuid := uuidNil, permissions := [] }
    [{ username := "alice", permissions := [⟨"B"⟩, ⟨"C"⟩] }]
    (by rfl) (by rfl) (by rfl) (by rfl) (by decide)
  exact h

/-- `strings.Split` never returns an empty slice. -/
lemma splitOnSlash_ne_nil (s : List Char) : splitOnSlash s ≠ [] := by
  cases s with
  | nil => simp [splitOnSlash]
  | cons c rest =>
    simp only [splitOnSlash]
    by_cases h : c = '/'
    · simp [h]
    · simp only [h, if_false]
      cases splitOnSlash rest <;> simp

/-- `strings.Split(s, "/")` has one more part than `s` has slashes. -/
lemma splitOnSlash_length (s : List Char) :
    (splitOnSlash s).length = s.count '/' + 1 := by
  induction s with
  | nil => simp [splitOnSlash]
  | cons c rest ih =>
    by_cases h : c = '/'
    · simp [splitOnSlash, h, ih, List.count_cons]
    · cases hs : splitOnSlash rest with
      | nil => exact absurd hs (splitOnSlash_ne_nil rest)
      | cons p ps =>
        rw [hs] at ih
        simp only [splitOnSlash, h, if_false, hs]
        simp only [List.length_cons] at ih ⊢
        have hcnt : (c :: rest).count '/' = rest.count '/' := by
          simp [List.count_cons, h]
        omega

/-- A one-part split means the string had no slash and equals the part. -/
lemma splitOnSlash_single (s x : List Char) (h : splitOnSlash s = [x]) :
    s = x := by
  induction s generalizing x with
  | nil =>
    simp [splitOnSlash] at h
    exact h.symm
  | cons c rest ih =>
    by_cases hc : c = '/'
    · simp [splitOnSlash, hc] at h
      exact absurd h.2 (splitOnSlash_ne_nil rest)
    · cases hs : splitOnSlash rest with
      | nil => exact absurd hs (splitOnSlash_ne_nil rest)
      | cons p ps =>
        simp only [splitOnSlash, hc, if_false, hs] at h
        simp at h
        obtain ⟨hx, hps⟩ := h
        subst hps
        rw [← hx, ih p hs]

/-- A two-part split reconstructs the string as
`first part ++ slash ++ second part`. -/
lemma splitOnSlash_pair (s a b : List Char) (h : splitOnSlash s = [a, b]) :
    s = a ++ '/' :: b := by
  induction s generalizing a with
  | nil => simp [splitOnSlash] at h
  | cons c rest ih =>
    by_cases hc : c = '/'
    · simp only [splitOnSlash, if_pos hc] at h
      injection h with h1 h2
      subst hc
      rw [splitOnSlash_single rest b h2, ← h1]
      rfl
    · cases hs : splitOnSlash rest with
      | nil => exact absurd hs (splitOnSlash_ne_nil rest)
      | cons p ps =>
        simp only [splitOnSlash, hc, if_false, hs] at h
        injection h with h1 h2
        rw [h2] at hs
        rw [← h1, ih p hs]
        rfl

/-- Claim C9: `parseCompositeID` errors exactly when the ID does not
contain exactly one slash; on success it returns the parts before and
after the slash, so joining them with a slash reconstructs the input
(either part may be empty). -/
theorem parseCompositeID_splits_exactly_once (id n1 n2 : List Char) :
    ((∃ e, parseCompositeID id n1 n2 = Except.error e) ↔
      id.count '/' ≠ 1) ∧
    (∀ a b, parseCompositeID id n1 n2 = Except.ok (a, b) →
      id = a ++ '/' :: b) := by
  have hlen := splitOnSlash_length id
  rcases hps : splitOnSlash id with _ | ⟨a0, _ | ⟨b0, _ | ⟨c0, rest⟩⟩⟩
  · exact absurd hps (splitOnSlash_ne_nil id)
  · rw [hps] at hlen
    simp at hlen
    constructor
    · simp [parseCompositeID, hps]
      omega
    · intro a b hok
      simp [parseCompositeID, hps] at hok
  · rw [hps] at hlen
    simp at hlen
    constructor
    · simp [parseCompositeID, hps]
      omega
    · intro a b hok
      simp [parseCompositeID, hps] at hok
      obtain ⟨ha, hb⟩ := hok
      subst ha
      subst hb
      exact splitOnSlash_pair id _ _ hps
  · rw [hps] at hlen
    simp at hlen
    constructor
    · simp [parseCompositeID, hps]
      omega
    · intro a b hok
      simp [parseCompositeID, hps] at hok

/-- Witness for C9: `"ab/cd"` parses into `"ab"` and `"cd"`, and joining
them with a slash reconstructs the input. -/
theorem parseCompositeID_splits_exactly_once_witness :
    parseCompositeID (String.toList "ab/cd") (String.toList "p1")
      (String.toList "p2") =
      Except.ok (String.toList "ab", String.toList "cd") ∧
    String.toList "ab/cd" = String.toList "ab" ++ '/' :: String.toList "cd" := by
  refine ⟨by rfl, ?_⟩
  exact (parseCompositeID_splits_exactly_once (String.toList "ab/cd")
    (String.toList "p1") (String.toList "p2")).2
    (String.toList "ab") (String.toList "cd") (by rfl)

/-- Claim C10: `getUserPermissions` answers `nil` (here `Except.ok none`)
with no error exactly when the username is absent from the managed-user
list, and a non-nil (possibly empty) list when the user is present; Read
removes the resource exactly when the answer is nil, so a user with zero
permissions is kept in state with an empty permission set. -/
theorem getUserPermissions_nil_iff_user_absent
    (api : UserAPI) (username : String)
    (users : List ManagedUserWithPermissions)
    (husers : api.managedUsers = Except.ok users) :
    ((ManagedUserPermissionsResource.getUserPermissions api username).2 =
        Except.ok none ↔ ∀ u ∈ users, u.username ≠ username) ∧
    (∀ u ∈ users, u.username = username →
      ∃ l, (ManagedUserPermissionsResource.getUserPermissions api username).2 =
        Except.ok (some l)) ∧
    ((ManagedUserPermissionsResource.Read api username).2 =
        ReadOutcome.removed ↔
      (ManagedUserPermissionsResource.getUserPermissions api username).2 =
        Except.ok none) ∧
    (∀ u, users.find? (fun x => x.username == username) = some u →
      u.permissions = [] →
      ManagedUserPermissionsResource.Read api username =
        ([Call.fetch], ReadOutcome.ok username [])) := by
  have hf := getUserPermissions_fst api username
  refine ⟨?_, ?_, ?_, ?_⟩
  · cases hfind : users.find? (fun x => x.username == username) with
    | none =>
      have habs := List.find?_eq_none.mp hfind
      constructor
      · intro _ u hu
        simpa using habs u hu
      · intro _
        simp [ManagedUserPermissionsResource.getUserPermissions, husers, hfind]
    | some u =>
      have hmatch := List.find?_some hfind
      have humem := List.mem_of_find?_eq_some hfind
      constructor
      · intro hcontra
        simp [ManagedUserPermissionsResource.getUserPermissions, husers,
          hfind] at hcontra
      · intro habs
        exfalso
        exact habs u humem (by simpa using hmatch)
  · intro u humem hname
    cases hfind : users.find? (fun x => x.username == username) with
    | none =>
      exfalso
      have hne := List.find?_eq_none.mp hfind u humem
      simp at hne
      exact hne hname
    | some w =>
      refine ⟨w.permissions.map Permission.name, ?_⟩
      simp [ManagedUserPermissionsResource.getUserPermissions, husers, hfind]
  · cases hg : (ManagedUserPermissionsResource.getUserPermissions
        api username).2 with
    | error e =>
      simp [ManagedUserPermissionsResource.Read, hg, hf]
    | ok r =>
      cases r with
      | none => simp [ManagedUserPermissionsResource.Read, hg, hf]
      | some l => simp [ManagedUserPermissionsResource.Read, hg, hf]
  · intro u hfind hperms
    have hg : (ManagedUserPermissionsResource.getUserPermissions
        api username).2 = Except.ok (some []) := by
      simp [ManagedUserPermissionsResource.getUserPermissions, husers,
        hfind, hperms]
    simp [ManagedUserPermissionsResource.Read, hg, hf]

/-- Witness for C10: `alice` exists with zero permissions — Read keeps the
resource with an empty permission set instead of dropping it. -/
theorem getUserPermissions_nil_iff_user_absent_witness :
    ManagedUserPermissionsResource.Read userApiAliceEmpty "alice" =
      ([Call.fetch], ReadOutcome.ok "alice" []) := by
  exact (getUserPermissions_nil_iff_user_absent userApiAliceEmpty "alice"
    [{ username := "alice", permissions := [] }] (by rfl)).2.2.2
    { username := "alice", permissions := [] } (by rfl) (by rfl)

end DTProvider
